import Mathlib

/-!
# Verification of the NHL win-probability Markov model

Shallow embedding of `src/NHLMarkovModel.py` (class `NHLMarkovModel`).

Modelling conventions:
* The Python dict `self.states` is an association list built in insertion
  order (`enumWith 0 stateKeys`); `dict.get` is first-match lookup
  (`dictGet`), which coincides with dict semantics because the constructed
  keys are pairwise distinct.
* The numpy matrix `self.transitions` is a total function
  `Nat → Nat → ℚ`; the live grid is `[0, n_states) × [0, n_states)` and all
  theorems quantify over that grid.  Real arithmetic is modelled exactly
  over `ℚ`.
* `np.linalg.matrix_power` is modelled by its binary-exponentiation
  algorithm (`matrix_power`); the spec's "repeated sequential
  multiplication" reading is the separate definition `seqPow`, used for the
  refinement comparison only.
* The method `propagate` mutates `self` (lazy normalization) and may raise;
  it is embedded in state-passing style, returning the post-state together
  with an `Except` result.  The on-disk power cache is transparent: a hit
  returns content identical to a recomputation, so it is modelled as the
  computation itself.
* `pickle` round-tripping is modelled as an in-memory record of exactly the
  three persisted fields.
-/

set_option maxRecDepth 40000

namespace NHL

/-- First-match lookup in an association list: `dict.get` for dicts with
pairwise-distinct keys. -/
def dictGet {α β : Type} [DecidableEq α] (k : α) : List (α × β) → Option β
  | [] => none
  | (k', v) :: es => if k' = k then some v else dictGet k es

/-- Pair every element with its position, starting at `n`; mirrors the
`idx = 0; for …: states[key] = idx; idx += 1` loop of `__init__`. -/
def enumWith {α : Type} (n : Nat) : List α → List (α × Nat)
  | [] => []
  | x :: xs => (x, n) :: enumWith (n + 1) xs

/-- Position of the first occurrence of `a`, if any. -/
def idxOf? {α : Type} [DecidableEq α] (a : α) : List α → Option Nat
  | [] => none
  | x :: xs => if x = a then some 0 else (idxOf? a xs).map (· + 1)

/-- `range(-6, 7)` from `__init__`. -/
def score_range : List Int := [-6, -5, -4, -3, -2, -1, 0, 1, 2, 3, 4, 5, 6]

/-- The 19 situation codes from `__init__`. -/
def situations : List Int :=
  [641, 1460, 651, 1560, 1541, 1451, 1551, 1550, 551,
   1531, 1351, 541, 1450, 531, 1350, 1441, 1431, 1341, 1331]

/-- The three zones from `__init__`. -/
def locations : List Char := ['O', 'N', 'D']

/-- All state triples in the enumeration order of the nested loops of
`__init__`: score outermost, then situation, then location. -/
def stateKeys : List (Int × Int × Char) :=
  score_range.flatMap fun s =>
    situations.flatMap fun sit =>
      locations.map fun loc => (s, sit, loc)

/-- The observable fields of a `NHLMarkovModel` instance. -/
structure NHLMarkovModel where
  states : List ((Int × Int × Char) × Nat)
  n_states : Nat
  transitions : Nat → Nat → ℚ
  is_normalized : Bool

/-- The model produced by `NHLMarkovModel.__init__`. -/
def initModel : NHLMarkovModel where
  states := enumWith 0 stateKeys
  n_states := (enumWith 0 stateKeys).length
  transitions := fun _ _ => 0
  is_normalized := false

/-- `state_to_idx`: `self.states.get((score, situation, location))`. -/
def state_to_idx (m : NHLMarkovModel) (score sit : Int) (loc : Char) :
    Option Nat :=
  dictGet (score, sit, loc) m.states

/-- Sum of row `i` over the live columns: `self.transitions.sum(axis=1)`. -/
def rowSum (n : Nat) (T : Nat → Nat → ℚ) (i : Nat) : ℚ :=
  ∑ j in Finset.range n, T i j

/-- The per-tick state triples read by `update_transitions` from its three
parallel sequences. -/
def trajStates (goals sits : List Int) (locs : List Char) :
    List (Int × Int × Char) :=
  (goals.zip (sits.zip locs)).map fun p => (p.1, p.2.1, p.2.2)

/-- One loop iteration of `update_transitions`: count one consecutive pair
when both endpoints resolve, otherwise leave the counts alone. -/
def recordPair (m : NHLMarkovModel) (T : Nat → Nat → ℚ)
    (p : (Int × Int × Char) × (Int × Int × Char)) : Nat → Nat → ℚ :=
  match state_to_idx m p.1.1 p.1.2.1 p.1.2.2,
        state_to_idx m p.2.1 p.2.2.1 p.2.2.2 with
  | some cur, some nxt =>
      fun a b => if a = cur ∧ b = nxt then T a b + 1 else T a b
  | _, _ => T

/-- `update_transitions`: walk the consecutive pairs of the observed
trajectory, bump a count for each resolvable pair, clear the flag. -/
def update_transitions (m : NHLMarkovModel) (goals sits : List Int)
    (locs : List Char) : NHLMarkovModel :=
  let seq := trajStates goals sits locs
  { m with
    transitions := (seq.zip seq.tail).foldl (recordPair m) m.transitions
    is_normalized := false }

/-- `normalize`: rescale every live row with positive sum to total 1, leave
zero-sum rows alone, set the flag. -/
def normalize (m : NHLMarkovModel) : NHLMarkovModel :=
  { m with
    transitions := fun i j =>
      if i < m.n_states ∧ 0 < rowSum m.n_states m.transitions i then
        m.transitions i j / rowSum m.n_states m.transitions i
      else m.transitions i j
    is_normalized := true }

/-- `n × n` matrix product on the live grid. -/
def matMul (n : Nat) (A B : Nat → Nat → ℚ) : Nat → Nat → ℚ :=
  fun i j => ∑ k in Finset.range n, A i k * B k j

/-- `np.eye(n)` as a total function: identity on the live grid. -/
def idMat (n : Nat) : Nat → Nat → ℚ :=
  fun i j => if i = j ∧ i < n then 1 else 0

/-- `np.linalg.matrix_power`: exponentiation by squaring over the binary
expansion of the exponent, as the numpy routine computes it. -/
def matrix_power (n : Nat) (M : Nat → Nat → ℚ) (k : Nat) : Nat → Nat → ℚ :=
  if k = 0 then idMat n
  else
    let half := matrix_power n (matMul n M M) (k / 2)
    if k % 2 = 1 then matMul n half M else half
termination_by k
decreasing_by omega

/-- Modelled from the spec: the `k`-th power "computed by repeated matrix
multiplication", `k` sequential multiplications starting from the
identity.  Used only as the comparison point of the refinement claim. -/
def seqPow (n : Nat) (M : Nat → Nat → ℚ) : Nat → (Nat → Nat → ℚ)
  | 0 => idMat n
  | k + 1 => matMul n (seqPow n M k) M

/-- Left-associated product of `k + 1` copies of `M` (no identity factor). -/
def ppow (n : Nat) (M : Nat → Nat → ℚ) : Nat → (Nat → Nat → ℚ)
  | 0 => M
  | k + 1 => matMul n (ppow n M k) M

/-- The one-hot distribution `state_probabilities`. -/
def oneHot (cur : Nat) : Nat → ℚ := fun i => if i = cur then 1 else 0

/-- Row vector times matrix: `state_probabilities @ matrix`. -/
def vecMul (n : Nat) (v : Nat → ℚ) (M : Nat → Nat → ℚ) : Nat → ℚ :=
  fun j => ∑ i in Finset.range n, v i * M i j

/-- `propagate`, in state-passing style: lazily normalize `self`, resolve
the initial state, raise on failure, otherwise push the one-hot vector
through the `n_steps`-th power of the matrix.  The on-disk power cache is
transparent (a hit holds exactly the recomputed content), so it is modelled
as the computation itself. -/
def propagate (m : NHLMarkovModel) (s sit : Int) (loc : Char)
    (n_steps : Nat) : NHLMarkovModel × Except String (Nat → ℚ) :=
  let m1 := if m.is_normalized then m else normalize m
  match state_to_idx m1 s sit loc with
  | none => (m1, Except.error "Invalid initial state")
  | some cur =>
      (m1, Except.ok (vecMul m1.n_states (oneHot cur)
        (matrix_power m1.n_states m1.transitions n_steps)))

/-- Modelled from the spec: `propagate` with the power matrix obtained by
repeated sequential multiplication instead of binary exponentiation. -/
def propagateSeq (m : NHLMarkovModel) (s sit : Int) (loc : Char)
    (n_steps : Nat) : NHLMarkovModel × Except String (Nat → ℚ) :=
  let m1 := if m.is_normalized then m else normalize m
  match state_to_idx m1 s sit loc with
  | none => (m1, Except.error "Invalid initial state")
  | some cur =>
      (m1, Except.ok (vecMul m1.n_states (oneHot cur)
        (seqPow m1.n_states m1.transitions n_steps)))

/-- The record `pickle.dump` writes: exactly the three persisted fields. -/
structure SavedRecord where
  transitions : Nat → Nat → ℚ
  is_normalized : Bool
  states : List ((Int × Int × Char) × Nat)

/-- `save`: serialize the three fields. -/
def save (m : NHLMarkovModel) : SavedRecord :=
  ⟨m.transitions, m.is_normalized, m.states⟩

/-- `load`: build a fresh model (`cls()`), then overwrite the three stored
fields from the record. -/
def load (r : SavedRecord) : NHLMarkovModel :=
  { initModel with
    transitions := r.transitions
    is_normalized := r.is_normalized
    states := r.states }

/-- Concrete two-state model instance for witnesses: row 0 holds counts
`(2, 2)`, row 1 is unvisited, flag clear. -/
def toyModel : NHLMarkovModel where
  states := [((0, 641, 'O'), 0), ((1, 641, 'O'), 1)]
  n_states := 2
  transitions := fun i j => if i = 0 ∧ (j = 0 ∨ j = 1) then 2 else 0
  is_normalized := false

/-- Concrete two-state model instance already holding a row-stochastic
matrix, flag set. -/
def toyStochastic : NHLMarkovModel where
  states := [((0, 641, 'O'), 0), ((1, 641, 'O'), 1)]
  n_states := 2
  transitions := fun i j =>
    if i = 0 ∧ j = 1 then 1 else if i = 1 ∧ j = 0 then 1 else 0
  is_normalized := true

/-- Concrete two-state model instance whose every row has positive count
sum, flag clear. -/
def toyFull : NHLMarkovModel where
  states := [((0, 641, 'O'), 0), ((1, 641, 'O'), 1)]
  n_states := 2
  transitions := fun i j => if i < 2 ∧ (j = 0 ∨ j = 1) then 1 else 0
  is_normalized := false

theorem dictGet_enumWith {α : Type} [DecidableEq α] (k : α) (l : List α)
    (n : Nat) :
    dictGet k (enumWith n l) = (idxOf? k l).map (fun i => n + i) := by
  induction l generalizing n with
  | nil => rfl
  | cons x xs ih =>
    by_cases h : x = k
    · simp [enumWith, dictGet, idxOf?, h]
    · simp only [enumWith, dictGet, idxOf?, h, if_false, if_neg h, ih]
      cases hx : idxOf? k xs <;> simp [hx] <;> omega

theorem idxOf?_lt_length {α : Type} [DecidableEq α] {a : α} :
    ∀ {l : List α} {i : Nat}, idxOf? a l = some i → i < l.length := by
  intro l
  induction l with
  | nil => intro i h; simp [idxOf?] at h
  | cons x xs ih =>
    intro i h
    by_cases hx : x = a
    · simp [idxOf?, hx] at h
      simp [List.length_cons]
      omega
    · simp only [idxOf?, if_neg hx] at h
      cases hy : idxOf? a xs with
      | none => rw [hy] at h; simp at h
      | some j =>
        rw [hy] at h
        simp at h
        have := ih hy
        simp [List.length_cons]
        omega

theorem idxOf?_get {α : Type} [DecidableEq α] {a : α} :
    ∀ {l : List α} {i : Nat}, idxOf? a l = some i →
      ∀ (h : i < l.length), l.get ⟨i, h⟩ = a := by
  intro l
  induction l with
  | nil => intro i h; simp [idxOf?] at h
  | cons x xs ih =>
    intro i h hi
    by_cases hx : x = a
    · simp [idxOf?, hx] at h
      subst h
      simpa using hx
    · simp only [idxOf?, if_neg hx] at h
      cases hy : idxOf? a xs with
      | none => rw [hy] at h; simp at h
      | some j =>
        rw [hy] at h
        simp at h
        subst h
        have hj : j < xs.length := idxOf?_lt_length hy
        simpa using ih hy hj

theorem idxOf?_eq_none_iff {α : Type} [DecidableEq α] {a : α} :
    ∀ {l : List α}, idxOf? a l = none ↔ a ∉ l := by
  intro l
  induction l with
  | nil => simp [idxOf?]
  | cons x xs ih =>
    by_cases hx : x = a
    · simp [idxOf?, hx]
    · simp [idxOf?, hx, ih, Option.map_eq_none]
      intro h
      exact fun hc => hx hc.symm

theorem idxOf?_isSome_of_mem {α : Type} [DecidableEq α] {a : α}
    {l : List α} (h : a ∈ l) : ∃ i, idxOf? a l = some i := by
  cases hy : idxOf? a l with
  | none => exact absurd (idxOf?_eq_none_iff.mp hy) (not_not_intro h)
  | some i => exact ⟨i, rfl⟩

theorem idxOf?_get_of_nodup {α : Type} [DecidableEq α] :
    ∀ {l : List α}, l.Nodup → ∀ (i : Nat) (h : i < l.length),
      idxOf? (l.get ⟨i, h⟩) l = some i := by
  intro l
  induction l with
  | nil => intro _ i h; simp at h
  | cons x xs ih =>
    intro hnd i h
    rcases List.nodup_cons.mp hnd with ⟨hx, hxs⟩
    cases i with
    | zero => simp [idxOf?]
    | succ j =>
      have hj : j < xs.length := by simpa using h
      have hne : x ≠ xs.get ⟨j, hj⟩ := by
        intro he
        exact hx (he ▸ List.get_mem xs j hj)
      simp only [List.get_cons_succ]
      simp only [idxOf?, if_neg hne]
      rw [ih hxs j hj]
      rfl

theorem idxOf?_append_of_none {α : Type} [DecidableEq α] {a : α}
    {l₁ : List α} (l₂ : List α) (h : idxOf? a l₁ = none) :
    idxOf? a (l₁ ++ l₂) = (idxOf? a l₂).map fun j => l₁.length + j := by
  induction l₁ with
  | nil =>
    simp only [List.nil_append, List.length_nil]
    cases idxOf? a l₂ <;> simp
  | cons x xs ih =>
    by_cases hx : x = a
    · simp [idxOf?, hx] at h
    · simp only [idxOf?, if_neg hx] at h
      have h' : idxOf? a xs = none := by
        cases hz : idxOf? a xs with
        | none => rfl
        | some j => rw [hz] at h; simp at h
      rw [List.cons_append]
      simp only [idxOf?, if_neg hx]
      rw [ih h']
      cases idxOf? a l₂ <;> simp [List.length_cons] <;> omega

theorem idxOf?_append_of_some {α : Type} [DecidableEq α] {a : α}
    {l₁ : List α} {i : Nat} (l₂ : List α) (h : idxOf? a l₁ = some i) :
    idxOf? a (l₁ ++ l₂) = some i := by
  induction l₁ generalizing i with
  | nil => simp [idxOf?] at h
  | cons x xs ih =>
    by_cases hx : x = a
    · simp [idxOf?, hx] at h ⊢
      exact h
    · simp only [idxOf?, if_neg hx] at h
      cases hy : idxOf? a xs with
      | none => rw [hy] at h; simp at h
      | some j =>
        rw [hy] at h
        simp at h
        rw [List.cons_append]
        simp only [idxOf?, if_neg hx]
        rw [ih hy]
        simp [h]

theorem idxOf?_map_inj {α β : Type} [DecidableEq α] [DecidableEq β]
    (fn : α → β) (hfn : ∀ x y, fn x = fn y → x = y) (a : α) (l : List α) :
    idxOf? (fn a) (l.map fn) = idxOf? a l := by
  induction l with
  | nil => rfl
  | cons x xs ih =>
    by_cases hx : x = a
    · simp [idxOf?, hx]
    · have hne : fn x ≠ fn a := fun he => hx (hfn _ _ he)
      simp [idxOf?, hx, hne, ih]

/-- Position of `b` in a flat-mapped list whose blocks all have length `L`
and whose elements each determine their own block via the tag `g`. -/
theorem idxOf?_flatMap {α β : Type} [DecidableEq α] [DecidableEq β]
    (l : List α) (f : α → List β) (g : β → α) (L : Nat)
    (hg : ∀ a ∈ l, ∀ x ∈ f a, g x = a)
    (hL : ∀ a ∈ l, (f a).length = L) (b : β) :
    idxOf? b (l.flatMap f) =
      (idxOf? (g b) l).bind fun i =>
        (idxOf? b (f (g b))).map fun j => i * L + j := by
  induction l with
  | nil => simp [idxOf?]
  | cons x xs ih =>
    have hgx : ∀ y ∈ f x, g y = x := hg x (by simp)
    have hLx : (f x).length = L := hL x (by simp)
    have hg' : ∀ a ∈ xs, ∀ y ∈ f a, g y = a := fun a ha => hg a (by simp [ha])
    have hL' : ∀ a ∈ xs, (f a).length = L := fun a ha => hL a (by simp [ha])
    rw [List.flatMap_cons]
    by_cases hx : x = g b
    · rw [hx]
      cases hfb : idxOf? b (f (g b)) with
      | some j =>
        rw [idxOf?_append_of_some _ hfb]
        simp [idxOf?, hfb]
      | none =>
        have hmem : b ∉ f (g b) := idxOf?_eq_none_iff.mp hfb
        have hrest : idxOf? b (xs.flatMap f) = none := by
          refine idxOf?_eq_none_iff.mpr ?_
          intro hb
          rcases List.mem_flatMap.mp hb with ⟨a, ha, hba⟩
          have hab : a = g b := (hg' a ha b hba).symm
          exact hmem (hab ▸ hba)
        rw [idxOf?_append_of_none _ hfb, hrest]
        simp [idxOf?, hfb]
    · have hbfx : b ∉ f x := fun hb => hx (hgx b hb).symm
      rw [idxOf?_append_of_none _ (idxOf?_eq_none_iff.mpr hbfx),
        ih hg' hL', hLx]
      simp only [idxOf?, if_neg hx]
      cases idxOf? (g b) xs <;> cases idxOf? b (f (g b)) <;>
        simp [Nat.succ_mul] <;> omega

theorem idxOf?_stateKeys (s sit : Int) (loc : Char) :
    idxOf? (s, sit, loc) stateKeys =
      (idxOf? s score_range).bind fun a =>
        (idxOf? sit situations).bind fun b =>
          (idxOf? loc locations).map fun c => a * 57 + (b * 3 + c) := by
  have h1 := idxOf?_flatMap score_range
      (fun s' => situations.flatMap fun sit' =>
        locations.map fun loc' => (s', sit', loc'))
      Prod.fst 57
      (by
        intro a _ x hx
        rcases List.mem_flatMap.mp hx with ⟨u, _, hu⟩
        rcases List.mem_map.mp hu with ⟨v, _, hv⟩
        simp [← hv])
      (by intro a _; rfl) (s, sit, loc)
  have h2 := idxOf?_flatMap situations
      (fun sit' => locations.map fun loc' => (s, sit', loc'))
      (fun p => p.2.1) 3
      (by
        intro a _ x hx
        rcases List.mem_map.mp hx with ⟨v, _, hv⟩
        simp [← hv])
      (by intro a _; rfl) (s, sit, loc)
  have h3 : idxOf? (s, sit, loc)
      (locations.map fun loc' => (s, sit, loc')) = idxOf? loc locations := by
    have := idxOf?_map_inj (fun loc' => (s, sit, loc'))
      (by intro x y hxy; simpa using hxy) loc locations
    simpa using this
  rw [show stateKeys = score_range.flatMap
      (fun s' => situations.flatMap fun sit' =>
        locations.map fun loc' => (s', sit', loc')) from rfl, h1]
  simp only at h2
  rw [h2, h3]
  cases idxOf? s score_range <;> cases idxOf? sit situations <;>
    cases idxOf? loc locations <;> simp

theorem state_to_idx_initModel_eq (s sit : Int) (loc : Char) :
    state_to_idx initModel s sit loc = idxOf? (s, sit, loc) stateKeys := by
  show dictGet (s, sit, loc) (enumWith 0 stateKeys) = _
  rw [dictGet_enumWith]
  cases idxOf? (s, sit, loc) stateKeys <;> simp

/-- The closed index formula for the constructed state dictionary. -/
theorem state_to_idx_formula (s sit : Int) (loc : Char) :
    state_to_idx initModel s sit loc =
      (idxOf? s score_range).bind fun a =>
        (idxOf? sit situations).bind fun b =>
          (idxOf? loc locations).map fun c => a * 57 + (b * 3 + c) := by
  rw [state_to_idx_initModel_eq, idxOf?_stateKeys]

theorem score_range_nodup : score_range.Nodup := by decide

theorem situations_nodup : situations.Nodup := by decide

theorem locations_nodup : locations.Nodup := by decide

theorem score_range_get : ∀ (a : Nat) (h : a < 13),
    score_range.get ⟨a, h⟩ = (a : Int) - 6 := by decide

theorem idxOf?_score_range_val (a : Nat) (h : a < 13) :
    idxOf? ((a : Int) - 6) score_range = some a := by
  have hg := idxOf?_get_of_nodup score_range_nodup a h
  rw [score_range_get a h] at hg
  exact hg

/-- Destructor for a successful `state_to_idx` lookup on the constructed
dictionary: positions of the three components and the index formula. -/
theorem state_to_idx_some_elim {s sit : Int} {loc : Char} {i : Nat}
    (h : state_to_idx initModel s sit loc = some i) :
    ∃ a b c : Nat, idxOf? s score_range = some a ∧
      idxOf? sit situations = some b ∧ idxOf? loc locations = some c ∧
      i = a * 57 + (b * 3 + c) ∧ a < 13 ∧ b < 19 ∧ c < 3 := by
  rw [state_to_idx_formula] at h
  cases ha : idxOf? s score_range with
  | none => rw [ha] at h; simp at h
  | some a =>
    rw [ha] at h
    cases hb : idxOf? sit situations with
    | none => rw [hb] at h; simp at h
    | some b =>
      rw [hb] at h
      cases hc : idxOf? loc locations with
      | none => rw [hc] at h; simp at h
      | some c =>
        rw [hc] at h
        simp at h
        exact ⟨a, b, c, rfl, rfl, rfl, h.symm,
          idxOf?_lt_length ha, idxOf?_lt_length hb, idxOf?_lt_length hc⟩

theorem state_to_idx_some_intro {s sit : Int} {loc : Char} {a b c : Nat}
    (ha : idxOf? s score_range = some a) (hb : idxOf? sit situations = some b)
    (hc : idxOf? loc locations = some c) :
    state_to_idx initModel s sit loc = some (a * 57 + (b * 3 + c)) := by
  rw [state_to_idx_formula, ha, hb, hc]
  rfl

/-- C1: `state_to_idx` on the freshly constructed model is a total bijection
from the declared domain (13 scores × 19 situations × 3 zones) onto
`[0, 741)`, and returns `none` exactly off the domain. -/
theorem C1_state_space_bijection :
    (∀ s : Int, s ∈ score_range ↔ -6 ≤ s ∧ s ≤ 6) ∧
    score_range.length = 13 ∧ situations.length = 19 ∧
    locations.length = 3 ∧ initModel.n_states = 741 ∧
    (∀ (s sit : Int) (loc : Char), s ∈ score_range → sit ∈ situations →
      loc ∈ locations →
      ∃ i, state_to_idx initModel s sit loc = some i ∧ i < 741) ∧
    (∀ (s sit : Int) (loc : Char) (s' sit' : Int) (loc' : Char) (i : Nat),
      state_to_idx initModel s sit loc = some i →
      state_to_idx initModel s' sit' loc' = some i →
      s = s' ∧ sit = sit' ∧ loc = loc') ∧
    (∀ i : Nat, i < 741 →
      ∃ (s sit : Int) (loc : Char),
        state_to_idx initModel s sit loc = some i) ∧
    (∀ (s sit : Int) (loc : Char),
      ¬(s ∈ score_range ∧ sit ∈ situations ∧ loc ∈ locations) →
      state_to_idx initModel s sit loc = none) := by
  refine ⟨?_, rfl, rfl, rfl, rfl, ?_, ?_, ?_, ?_⟩
  · intro s
    simp [score_range]
    omega
  · intro s sit loc hs hsit hloc
    obtain ⟨a, ha⟩ := idxOf?_isSome_of_mem hs
    obtain ⟨b, hb⟩ := idxOf?_isSome_of_mem hsit
    obtain ⟨c, hc⟩ := idxOf?_isSome_of_mem hloc
    have ha' : a < 13 := idxOf?_lt_length ha
    have hb' : b < 19 := idxOf?_lt_length hb
    have hc' : c < 3 := idxOf?_lt_length hc
    exact ⟨_, state_to_idx_some_intro ha hb hc, by omega⟩
  · intro s sit loc s' sit' loc' i h h'
    obtain ⟨a, b, c, ha, hb, hc, hi, ha', hb', hc'⟩ := state_to_idx_some_elim h
    obtain ⟨a2, b2, c2, ha2, hb2, hc2, hi2, ha2', hb2', hc2'⟩ :=
      state_to_idx_some_elim h'
    have heq : a = a2 ∧ b = b2 ∧ c = c2 := by omega
    obtain ⟨rfl, rfl, rfl⟩ := heq
    have h1 : a < score_range.length := ha'
    have h2 : b < situations.length := hb'
    have h3 : c < locations.length := hc'
    refine ⟨?_, ?_, ?_⟩
    · rw [← idxOf?_get ha h1, ← idxOf?_get ha2 h1]
    · rw [← idxOf?_get hb h2, ← idxOf?_get hb2 h2]
    · rw [← idxOf?_get hc h3, ← idxOf?_get hc2 h3]
  · intro i hi
    have ha' : i / 57 < 13 := by omega
    have hb' : i % 57 / 3 < 19 := by omega
    have hc' : i % 57 % 3 < 3 := by omega
    refine ⟨(↑(i / 57) : Int) - 6, situations.get ⟨i % 57 / 3, hb'⟩,
      locations.get ⟨i % 57 % 3, hc'⟩, ?_⟩
    rw [state_to_idx_some_intro (idxOf?_score_range_val _ ha')
      (idxOf?_get_of_nodup situations_nodup _ hb')
      (idxOf?_get_of_nodup locations_nodup _ hc')]
    simp only [Option.some_inj]
    omega
  · intro s sit loc hn
    rw [state_to_idx_formula]
    by_cases hs : s ∈ score_range
    · by_cases hsit : sit ∈ situations
      · by_cases hloc : loc ∈ locations
        · exact absurd ⟨hs, hsit, hloc⟩ hn
        · rw [idxOf?_eq_none_iff.mpr hloc]
          cases idxOf? s score_range <;> cases idxOf? sit situations <;> simp
      · rw [idxOf?_eq_none_iff.mpr hsit]
        cases idxOf? s score_range <;> simp
    · rw [idxOf?_eq_none_iff.mpr hs]
      simp

/-- C1 witness: concrete evaluations through `C1_state_space_bijection`. -/
theorem C1_state_space_bijection_witness :
    (∃ i, state_to_idx initModel 0 641 'O' = some i ∧ i < 741) ∧
    state_to_idx initModel 7 641 'O' = none := by
  refine ⟨C1_state_space_bijection.2.2.2.2.2.1 0 641 'O'
    (by decide) (by decide) (by decide), ?_⟩
  exact C1_state_space_bijection.2.2.2.2.2.2.2.2 7 641 'O' (by decide)

/-- C2: each score differential owns one contiguous 57-index block, blocks
are ordered by strictly increasing score, and the negative / zero / positive
score states occupy exactly `[0, 342)`, `[342, 399)`, `[399, 741)` — the
slices summed by `plot_specific_game` for away win, draw, home win. -/
theorem C2_score_blocks_contiguous :
    ∀ (s sit : Int) (loc : Char) (i : Nat),
      state_to_idx initModel s sit loc = some i →
      ∃ a : Nat, idxOf? s score_range = some a ∧ s = (a : Int) - 6 ∧
        a * 57 ≤ i ∧ i < a * 57 + 57 ∧
        (∀ i' : Nat, a * 57 ≤ i' → i' < a * 57 + 57 →
          ∃ (sit' : Int) (loc' : Char),
            state_to_idx initModel s sit' loc' = some i') ∧
        (s < 0 ↔ i < 342) ∧ (s = 0 ↔ 342 ≤ i ∧ i < 399) ∧
        (0 < s ↔ 399 ≤ i ∧ i < 741) := by
  intro s sit loc i h
  obtain ⟨a, b, c, ha, hb, hc, hi, ha', hb', hc'⟩ := state_to_idx_some_elim h
  have hs : s = (a : Int) - 6 := by
    have h1 : a < score_range.length := ha'
    rw [← idxOf?_get ha h1]
    exact score_range_get a ha'
  refine ⟨a, ha, hs, by omega, by omega, ?_, by omega, by omega, by omega⟩
  intro i' hlo hhi
  have hb2 : (i' - a * 57) / 3 < 19 := by omega
  have hc2 : (i' - a * 57) % 3 < 3 := by omega
  refine ⟨situations.get ⟨(i' - a * 57) / 3, hb2⟩,
    locations.get ⟨(i' - a * 57) % 3, hc2⟩, ?_⟩
  rw [state_to_idx_some_intro ha
    (idxOf?_get_of_nodup situations_nodup _ hb2)
    (idxOf?_get_of_nodup locations_nodup _ hc2)]
  simp only [Option.some_inj]
  omega

/-- C2 witness: the zero-score state `(0, 641, 'O')` sits at index 342, the
first index of the draw block. -/
theorem C2_score_blocks_contiguous_witness :
    ∃ a : Nat, idxOf? (0 : Int) score_range = some a ∧ (0 : Int) = (a : Int) - 6 ∧
      a * 57 ≤ 342 ∧ 342 < a * 57 + 57 ∧
      (∀ i' : Nat, a * 57 ≤ i' → i' < a * 57 + 57 →
        ∃ (sit' : Int) (loc' : Char),
          state_to_idx initModel 0 sit' loc' = some i') ∧
      ((0 : Int) < 0 ↔ 342 < 342) ∧
      ((0 : Int) = 0 ↔ 342 ≤ 342 ∧ 342 < 399) ∧
      ((0 : Int) > 0 ↔ 399 ≤ 342 ∧ 342 < 741) := by
  have h := C2_score_blocks_contiguous 0 641 'O' 342 (by decide)
  obtain ⟨a, ha, hs, h1, h2, h3, h4, h5, h6⟩ := h
  exact ⟨a, ha, hs, h1, h2, h3, by omega, by omega, by omega⟩

theorem foldl_recordPair (m : NHLMarkovModel)
    (ps : List ((Int × Int × Char) × (Int × Int × Char)))
    (T : Nat → Nat → ℚ) (a b : Nat) :
    ps.foldl (recordPair m) T a b =
      T a b + ((ps.filter fun p =>
        decide (state_to_idx m p.1.1 p.1.2.1 p.1.2.2 = some a ∧
          state_to_idx m p.2.1 p.2.2.1 p.2.2.2 = some b)).length : ℚ) := by
  induction ps generalizing T with
  | nil => simp
  | cons p ps ih =>
    rw [List.foldl_cons, ih]
    cases hcur : state_to_idx m p.1.1 p.1.2.1 p.1.2.2 with
    | none => simp [recordPair, hcur, List.filter_cons]
    | some u =>
      cases hnxt : state_to_idx m p.2.1 p.2.2.1 p.2.2.2 with
      | none => simp [recordPair, hcur, hnxt, List.filter_cons]
      | some w =>
        by_cases hab : a = u ∧ b = w
        · obtain ⟨rfl, rfl⟩ := hab
          simp [recordPair, hcur, hnxt, List.filter_cons]
          ring
        · have hne : ¬(u = a ∧ w = b) := fun hc => hab ⟨hc.1.symm, hc.2.symm⟩
          simp only [recordPair, hcur, hnxt, List.filter_cons]
          rw [if_neg hab]
          simp [hne]

/-- C3: `update_transitions` on equal-length sequences adds exactly one
count per resolvable consecutive pair, silently drops unresolvable pairs,
leaves every unaddressed entry unchanged, and always clears the flag. -/
theorem C3_update_transitions_counts (m : NHLMarkovModel)
    (goals sits : List Int) (locs : List Char)
    (h1 : goals.length = sits.length) (h2 : sits.length = locs.length) :
    (update_transitions m goals sits locs).is_normalized = false ∧
    (update_transitions m goals sits locs).states = m.states ∧
    (update_transitions m goals sits locs).n_states = m.n_states ∧
    ∀ a b : Nat,
      (update_transitions m goals sits locs).transitions a b =
        m.transitions a b +
          ((((trajStates goals sits locs).zip
              (trajStates goals sits locs).tail).filter fun p =>
            decide (state_to_idx m p.1.1 p.1.2.1 p.1.2.2 = some a ∧
              state_to_idx m p.2.1 p.2.2.1 p.2.2.2 = some b)).length : ℚ) := by
  exact ⟨rfl, rfl, rfl, fun a b => foldl_recordPair m _ m.transitions a b⟩

/-- C3 witness: feeding the concrete trajectory
`(0,641,'O') → (0,641,'N')` to the fresh model adds one count at
`(342, 343)` and clears the flag. -/
theorem C3_update_transitions_counts_witness :
    (update_transitions initModel [0, 0] [641, 641] ['O', 'N']).is_normalized
        = false ∧
    (update_transitions initModel [0, 0] [641, 641] ['O', 'N']).transitions
        342 343 = 1 := by
  have h := C3_update_transitions_counts initModel [0, 0] [641, 641]
    ['O', 'N'] rfl rfl
  refine ⟨h.1, ?_⟩
  rw [h.2.2.2 342 343]
  have hlen : ((((trajStates [0, 0] [641, 641] ['O', 'N']).zip
      (trajStates [0, 0] [641, 641] ['O', 'N']).tail).filter fun p =>
        decide (state_to_idx initModel p.1.1 p.1.2.1 p.1.2.2 = some 342 ∧
          state_to_idx initModel p.2.1 p.2.2.1 p.2.2.2 = some 343)).length)
      = 1 := by decide
  rw [hlen]
  show (0 : ℚ) + (1 : Nat) = 1
  simp

theorem normalize_entry_pos (m : NHLMarkovModel) {i : Nat}
    (hi : i < m.n_states)
    (hpos : 0 < rowSum m.n_states m.transitions i) (j : Nat) :
    (normalize m).transitions i j =
      m.transitions i j / rowSum m.n_states m.transitions i := by
  simp [normalize, hi, hpos]

theorem normalize_rowSum_pos (m : NHLMarkovModel) {i : Nat}
    (hi : i < m.n_states)
    (hpos : 0 < rowSum m.n_states m.transitions i) :
    rowSum m.n_states (normalize m).transitions i = 1 := by
  have hne : rowSum m.n_states m.transitions i ≠ 0 := ne_of_gt hpos
  calc rowSum m.n_states (normalize m).transitions i
      = ∑ j in Finset.range m.n_states,
          m.transitions i j / rowSum m.n_states m.transitions i := by
        exact Finset.sum_congr rfl fun j _ => normalize_entry_pos m hi hpos j
    _ = rowSum m.n_states m.transitions i /
          rowSum m.n_states m.transitions i := by
        rw [← Finset.sum_div]; rfl
    _ = 1 := div_self hne

/-- C4: after `normalize`, every live row with positive pre-sum is the old
row divided by that sum and totals 1; zero-sum rows keep their entries (and
are identically zero when the counts are non-negative); the flag is set. -/
theorem C4_normalize_rows (m : NHLMarkovModel) :
    (normalize m).is_normalized = true ∧
    (normalize m).states = m.states ∧
    (normalize m).n_states = m.n_states ∧
    ∀ i : Nat, i < m.n_states →
      (0 < rowSum m.n_states m.transitions i →
        (∀ j : Nat, (normalize m).transitions i j =
          m.transitions i j / rowSum m.n_states m.transitions i) ∧
        rowSum m.n_states (normalize m).transitions i = 1) ∧
      (rowSum m.n_states m.transitions i = 0 →
        (∀ j : Nat, (normalize m).transitions i j = m.transitions i j) ∧
        ((∀ j : Nat, 0 ≤ m.transitions i j) →
          ∀ j : Nat, j < m.n_states → (normalize m).transitions i j = 0)) := by
  refine ⟨rfl, rfl, rfl, ?_⟩
  intro i hi
  constructor
  · intro hpos
    exact ⟨normalize_entry_pos m hi hpos, normalize_rowSum_pos m hi hpos⟩
  · intro hzero
    have hunch : ∀ j : Nat, (normalize m).transitions i j =
        m.transitions i j := by
      intro j
      simp [normalize, hzero]
    refine ⟨hunch, ?_⟩
    intro hnn j hj
    rw [hunch j]
    have := (Finset.sum_eq_zero_iff_of_nonneg
      (fun j _ => hnn j)).mp hzero j (Finset.mem_range.mpr hj)
    exact this

theorem matMul_assoc (n : Nat) (A B C : Nat → Nat → ℚ) :
    matMul n (matMul n A B) C = matMul n A (matMul n B C) := by
  funext i j
  unfold matMul
  simp only [Finset.sum_mul, Finset.mul_sum]
  rw [Finset.sum_comm]
  exact Finset.sum_congr rfl fun l _ =>
    Finset.sum_congr rfl fun k _ => mul_assoc _ _ _

theorem ppow_square (n : Nat) (M : Nat → Nat → ℚ) (j : Nat) :
    ppow n (matMul n M M) j = ppow n M (2 * j + 1) := by
  induction j with
  | zero => rfl
  | succ j ih =>
    show matMul n (ppow n (matMul n M M) j) (matMul n M M) = _
    rw [ih, ← matMul_assoc]
    have h2 : 2 * (j + 1) + 1 = (2 * j + 1 + 1) + 1 := by omega
    rw [h2]
    rfl

theorem matrix_power_eq_id_ppow (n : Nat) (M : Nat → Nat → ℚ) (k : Nat)
    (hk : 1 ≤ k) :
    matrix_power n M k = matMul n (idMat n) (ppow n M (k - 1)) := by
  induction k using Nat.strong_induction_on generalizing M with
  | _ k ih =>
    rw [matrix_power]
    have hk0 : ¬k = 0 := by omega
    rw [if_neg hk0]
    by_cases hhalf : k / 2 = 0
    · have hk1 : k = 1 := by omega
      subst hk1
      simp only [hhalf]
      rw [matrix_power]
      simp [ppow]
    · have hrec := ih (k / 2) (by omega) (matMul n M M) (by omega)
      rw [hrec, ppow_square]
      have harith : 2 * (k / 2 - 1) + 1 = 2 * (k / 2) - 1 := by omega
      rw [harith]
      by_cases hodd : k % 2 = 1
      · rw [if_pos hodd, matMul_assoc]
        have : (2 * (k / 2) - 1) + 1 = k - 1 := by omega
        rw [show matMul n (ppow n M (2 * (k / 2) - 1)) M =
            ppow n M ((2 * (k / 2) - 1) + 1) from rfl, this]
      · rw [if_neg hodd]
        have : 2 * (k / 2) - 1 = k - 1 := by omega
        rw [this]

theorem seqPow_eq_id_ppow (n : Nat) (M : Nat → Nat → ℚ) (k : Nat)
    (hk : 1 ≤ k) :
    seqPow n M k = matMul n (idMat n) (ppow n M (k - 1)) := by
  induction k with
  | zero => omega
  | succ k ih =>
    cases Nat.eq_or_lt_of_le hk with
    | inl h1 =>
      have : k = 0 := by omega
      subst this
      rfl
    | inr h1 =>
      have hk' : 1 ≤ k := by omega
      show matMul n (seqPow n M k) M = _
      rw [ih hk', matMul_assoc]
      have : matMul n (ppow n M (k - 1)) M = ppow n M ((k - 1) + 1) := rfl
      rw [this, show (k - 1) + 1 = k + 1 - 1 from by omega]

/-- The binary-exponentiation power agrees with the sequential one. -/
theorem matrix_power_eq_seqPow (n : Nat) (M : Nat → Nat → ℚ) (k : Nat) :
    matrix_power n M k = seqPow n M k := by
  cases k with
  | zero => rw [matrix_power]; rfl
  | succ k =>
    rw [matrix_power_eq_id_ppow n M (k + 1) (by omega),
      seqPow_eq_id_ppow n M (k + 1) (by omega)]

/-- C4 witness: on the concrete two-state model, the positive-sum row is
rescaled to total 1 and the zero-sum row stays identically zero. -/
theorem C4_normalize_rows_witness :
    (normalize toyModel).is_normalized = true ∧
    (∀ j : Nat, (normalize toyModel).transitions 0 j =
      toyModel.transitions 0 j /
        rowSum toyModel.n_states toyModel.transitions 0) ∧
    rowSum toyModel.n_states (normalize toyModel).transitions 0 = 1 ∧
    (∀ j : Nat, j < toyModel.n_states →
      (normalize toyModel).transitions 1 j = 0) := by
  have h := C4_normalize_rows toyModel
  have hpos : 0 < rowSum toyModel.n_states toyModel.transitions 0 := by
    simp [rowSum, toyModel, Finset.sum_range_succ]
  have hzero : rowSum toyModel.n_states toyModel.transitions 1 = 0 := by
    simp [rowSum, toyModel, Finset.sum_range_succ]
  have hnn : ∀ j : Nat, 0 ≤ toyModel.transitions 1 j := by
    intro j
    simp [toyModel]
  exact ⟨h.1, ((h.2.2.2 0 (by decide)).1 hpos).1,
    ((h.2.2.2 0 (by decide)).1 hpos).2,
    ((h.2.2.2 1 (by decide)).2 hzero).2 hnn⟩

theorem state_to_idx_normalize (m : NHLMarkovModel) (s sit : Int)
    (loc : Char) :
    state_to_idx (normalize m) s sit loc = state_to_idx m s sit loc := rfl

theorem normalize_n_states (m : NHLMarkovModel) :
    (normalize m).n_states = m.n_states := rfl

theorem normalize_states (m : NHLMarkovModel) :
    (normalize m).states = m.states := rfl

theorem rowSum_idMat (n i : Nat) (h : i < n) : rowSum n (idMat n) i = 1 := by
  unfold rowSum idMat
  simp [h, Finset.sum_ite_eq, Finset.mem_range]

theorem rowSum_matMul (n : Nat) (A B : Nat → Nat → ℚ) (i : Nat)
    (hB : ∀ j, j < n → rowSum n B j = 1) :
    rowSum n (matMul n A B) i = rowSum n A i := by
  unfold rowSum matMul
  rw [Finset.sum_comm]
  refine Finset.sum_congr rfl ?_
  intro k hk
  rw [← Finset.mul_sum]
  have hr : (∑ j in Finset.range n, B k j) = 1 :=
    hB k (Finset.mem_range.mp hk)
  rw [hr, mul_one]

theorem rowSum_seqPow (n : Nat) (M : Nat → Nat → ℚ)
    (hM : ∀ j, j < n → rowSum n M j = 1) (k : Nat) :
    ∀ i, i < n → rowSum n (seqPow n M k) i = 1 := by
  induction k with
  | zero => intro i hi; exact rowSum_idMat n i hi
  | succ k ih =>
    intro i hi
    show rowSum n (matMul n (seqPow n M k) M) i = 1
    rw [rowSum_matMul n _ M i hM]
    exact ih i hi

/-- C5: `propagate` raises the invalid-state error exactly when the initial
triple is unresolvable (after lazily normalizing when the flag is clear);
otherwise it returns the one-hot vector at the initial index pushed through
the `n_steps`-th power of the (lazily normalized) matrix. -/
theorem C5_propagate_invalid_state (m : NHLMarkovModel) (s sit : Int)
    (loc : Char) (k : Nat) :
    ((∃ e, (propagate m s sit loc k).2 = Except.error e) ↔
      state_to_idx m s sit loc = none) ∧
    ∀ cur : Nat, state_to_idx m s sit loc = some cur →
      (propagate m s sit loc k).2 = Except.ok
        (vecMul m.n_states (oneHot cur) (matrix_power m.n_states
          ((if m.is_normalized then m else normalize m).transitions) k)) := by
  cases hf : m.is_normalized <;>
    cases hres : state_to_idx m s sit loc <;>
      simp [propagate, hf, state_to_idx_normalize, hres, normalize_n_states]

/-- C5 witness: a resolvable initial state on a concrete model yields the
documented vector. -/
theorem C5_propagate_invalid_state_witness :
    (propagate toyStochastic 0 641 'O' 7).2 = Except.ok
      (vecMul toyStochastic.n_states (oneHot 0)
        (matrix_power toyStochastic.n_states
          ((if toyStochastic.is_normalized then toyStochastic
            else normalize toyStochastic).transitions) 7)) :=
  (C5_propagate_invalid_state toyStochastic 0 641 'O' 7).2 0 (by decide)

/-- C6: when every live row has strictly positive count sum, the vector
returned by `propagate` sums to exactly 1 for every resolvable start state
and every horizon. -/
theorem C6_mass_conservation (m : NHLMarkovModel) (s sit : Int) (loc : Char)
    (k cur : Nat) (hflag : m.is_normalized = false)
    (hpos : ∀ i, i < m.n_states →
      0 < rowSum m.n_states m.transitions i)
    (hres : state_to_idx m s sit loc = some cur)
    (hcur : cur < m.n_states) :
    ∃ v, (propagate m s sit loc k).2 = Except.ok v ∧
      ∑ j in Finset.range m.n_states, v j = 1 := by
  have hrows : ∀ i, i < m.n_states →
      rowSum m.n_states (normalize m).transitions i = 1 :=
    fun i hi => normalize_rowSum_pos m hi (hpos i hi)
  have hstep : (propagate m s sit loc k).2 = Except.ok
      (vecMul m.n_states (oneHot cur)
        (matrix_power m.n_states (normalize m).transitions k)) := by
    simp [propagate, hflag, state_to_idx_normalize, hres, normalize_n_states]
  refine ⟨_, hstep, ?_⟩
  rw [matrix_power_eq_seqPow]
  unfold vecMul
  rw [Finset.sum_comm]
  have h1 : ∀ i ∈ Finset.range m.n_states,
      (∑ j in Finset.range m.n_states, oneHot cur i *
        seqPow m.n_states (normalize m).transitions k i j) =
      oneHot cur i *
        rowSum m.n_states (seqPow m.n_states
          (normalize m).transitions k) i :=
    fun i _ => (Finset.mul_sum _ _ _).symm
  rw [Finset.sum_congr rfl h1]
  have h2 : ∀ i ∈ Finset.range m.n_states,
      oneHot cur i * rowSum m.n_states
        (seqPow m.n_states (normalize m).transitions k) i =
      if i = cur then rowSum m.n_states
        (seqPow m.n_states (normalize m).transitions k) i else 0 := by
    intro i _
    unfold oneHot
    by_cases hic : i = cur <;> simp [hic]
  rw [Finset.sum_congr rfl h2, Finset.sum_ite_eq'
    (Finset.range m.n_states) cur]
  rw [if_pos (Finset.mem_range.mpr hcur)]
  exact rowSum_seqPow m.n_states _ hrows k cur hcur

/-- C6 witness: concrete fully-connected two-state model, horizon 3. -/
theorem C6_mass_conservation_witness :
    ∃ v, (propagate toyFull 0 641 'O' 3).2 = Except.ok v ∧
      ∑ j in Finset.range toyFull.n_states, v j = 1 := by
  have hpos : ∀ i, i < toyFull.n_states →
      0 < rowSum toyFull.n_states toyFull.transitions i := by
    intro i hi
    have hi2 : i < 2 := hi
    simp [rowSum, toyFull, Finset.sum_range_succ, hi2]
    refine ⟨0, ?_⟩
    simp [hi2]
  exact C6_mass_conservation toyFull 0 641 'O' 3 0 rfl hpos (by decide)
    (by decide)

/-- C7: loading what `save` wrote restores the matrix, the flag, and the
state mapping exactly, and `load` takes the mapping from the stored record
rather than re-deriving it. -/
theorem C7_save_load_roundtrip :
    (∀ m : NHLMarkovModel,
      (load (save m)).transitions = m.transitions ∧
      (load (save m)).is_normalized = m.is_normalized ∧
      (load (save m)).states = m.states) ∧
    ∀ r : SavedRecord, (load r).states = r.states ∧
      (load r).transitions = r.transitions ∧
      (load r).is_normalized = r.is_normalized :=
  ⟨fun _ => ⟨rfl, rfl, rfl⟩, fun _ => ⟨rfl, rfl, rfl⟩⟩

/-- C8: at horizon 0 the returned vector is exactly one-hot at the initial
state's index. -/
theorem C8_propagate_zero_one_hot (m : NHLMarkovModel) (s sit : Int)
    (loc : Char) (cur : Nat)
    (hres : state_to_idx m s sit loc = some cur)
    (hcur : cur < m.n_states) :
    ∃ v, (propagate m s sit loc 0).2 = Except.ok v ∧ v cur = 1 ∧
      ∀ j : Nat, j ≠ cur → v j = 0 := by
  have hpow : ∀ T : Nat → Nat → ℚ,
      matrix_power m.n_states T 0 = idMat m.n_states := by
    intro T
    rw [matrix_power]
    simp
  have hstep : (propagate m s sit loc 0).2 = Except.ok
      (vecMul m.n_states (oneHot cur) (idMat m.n_states)) := by
    cases hf : m.is_normalized <;>
      simp [propagate, hf, state_to_idx_normalize, hres, hpow,
        normalize_n_states]
  refine ⟨_, hstep, ?_, ?_⟩
  · unfold vecMul
    rw [Finset.sum_eq_single_of_mem cur (Finset.mem_range.mpr hcur)]
    · simp [oneHot, idMat, hcur]
    · intro i _ hic
      simp [oneHot, hic]
  · intro j hj
    unfold vecMul
    apply Finset.sum_eq_zero
    intro i _
    by_cases hic : i = cur
    · rw [hic]
      have hij : ¬cur = j := fun he => hj he.symm
      simp [idMat, hij]
    · simp [oneHot, hic]

/-- C8 witness: horizon 0 on a concrete model. -/
theorem C8_propagate_zero_one_hot_witness :
    ∃ v, (propagate toyStochastic 0 641 'O' 0).2 = Except.ok v ∧
      v 0 = 1 ∧ ∀ j : Nat, j ≠ 0 → v j = 0 :=
  C8_propagate_zero_one_hot toyStochastic 0 641 'O' 0 (by decide) (by decide)

/-- C9: the binary-exponentiation power used by `propagate` coincides with
the spec's sequential-multiplication power (identity at horizon 0), so the
observable output of `propagate` is unchanged by the substitution. -/
theorem C9_power_refinement :
    (∀ (n : Nat) (M : Nat → Nat → ℚ) (k : Nat),
      matrix_power n M k = seqPow n M k) ∧
    ∀ (m : NHLMarkovModel) (s sit : Int) (loc : Char) (k : Nat),
      propagate m s sit loc k = propagateSeq m s sit loc k := by
  refine ⟨matrix_power_eq_seqPow, ?_⟩
  intro m s sit loc k
  simp only [propagate, propagateSeq, matrix_power_eq_seqPow]

/-- C10: calling `propagate` with the flag clear and an unresolvable start
state raises, yet the model was already normalized: the post-state is
`normalize m`, its flag is set, its positive rows are rescaled — the
failed call is not atomic. -/
theorem C10_propagate_mutates_before_raising (m : NHLMarkovModel)
    (s sit : Int) (loc : Char) (k : Nat)
    (hflag : m.is_normalized = false)
    (hres : state_to_idx m s sit loc = none) :
    (propagate m s sit loc k).2 = Except.error "Invalid initial state" ∧
    (propagate m s sit loc k).1 = normalize m ∧
    (propagate m s sit loc k).1.is_normalized = true ∧
    (propagate m s sit loc k).1 ≠ m ∧
    ∀ i, i < m.n_states → 0 < rowSum m.n_states m.transitions i →
      ∀ j : Nat, (propagate m s sit loc k).1.transitions i j =
        m.transitions i j / rowSum m.n_states m.transitions i := by
  have hprop : propagate m s sit loc k =
      (normalize m, Except.error "Invalid initial state") := by
    simp [propagate, hflag, state_to_idx_normalize, hres]
  refine ⟨by rw [hprop], by rw [hprop], by rw [hprop]; rfl, ?_, ?_⟩
  · rw [hprop]
    intro he
    have he' : normalize m = m := he
    have hb : (normalize m).is_normalized = m.is_normalized := by rw [he']
    rw [hflag] at hb
    exact absurd hb (by simp [normalize])
  · intro i hi hpos j
    rw [hprop]
    exact normalize_entry_pos m hi hpos j

/-- C10 witness: concrete failed call on a concrete un-normalized model. -/
theorem C10_propagate_mutates_before_raising_witness :
    (propagate toyModel 99 0 'X' 5).2 =
      Except.error "Invalid initial state" ∧
    (propagate toyModel 99 0 'X' 5).1 = normalize toyModel ∧
    (propagate toyModel 99 0 'X' 5).1.is_normalized = true ∧
    (propagate toyModel 99 0 'X' 5).1 ≠ toyModel ∧
    ∀ i, i < toyModel.n_states →
      0 < rowSum toyModel.n_states toyModel.transitions i →
      ∀ j : Nat, (propagate toyModel 99 0 'X' 5).1.transitions i j =
        toyModel.transitions i j /
          rowSum toyModel.n_states toyModel.transitions i :=
  C10_propagate_mutates_before_raising toyModel 99 0 'X' 5 rfl (by decide)

end NHL
